import Mathlib

/-!
Verification of the chunked-upload content stream of the `shapir` SDK
(`src/api/items/content.rs`).

The `Content` struct implements `std::io::Read` / `std::io::Write`.  In write
mode it owns a `WriteBuf` that accumulates bytes, and once the pending buffer
reaches `CHUNK_SIZE` or the declared file size is reached it issues one HTTP
POST carrying the whole pending buffer, with query parameters
`finish` (only on the terminal chunk), `index`, `offset` and `filehash`
(lowercase hex MD5 of the chunk body).

The embedding below is a direct transcription of that code.  The MD5 digest
comes from the external `md5` crate, so it is kept abstract as a parameter
`md5f : Bytes → Bytes`; the hex encoding models `rustc_serialize`'s `to_hex`
(lowercase).  The network is modelled by a `NetResult` oracle giving the
outcome of the one POST a `write` call may perform.  Rust panics are modelled
as distinguished failure results (`panicSizeExceeded`, `panicNotWriteMode`,
`panicNotReadMode`); a sequence of calls stops at a panic, as the process
would.
-/

namespace Shapir

/-- Byte strings are lists of byte values. -/
abbrev Bytes := List Nat

/-- Source: `const CHUNK_SIZE: usize = 1024 * 16;` — the uploading data chunk size. -/
def CHUNK_SIZE : Nat := 1024 * 16

/-- The sixteen lowercase hex digit characters used by `rustc_serialize`'s
`to_hex` (`b"0123456789abcdef"`). -/
def HEX_CHARS : List Char := "0123456789abcdef".data

/-- Character list of the lowercase hex encoding of a byte string: each byte
`b` contributes `CHARS[b >> 4]` then `CHARS[b & 0xf]`. -/
def hexChars : Bytes → List Char
  | [] => []
  | b :: bs =>
      HEX_CHARS.getD (b / 16 % 16) '0' :: HEX_CHARS.getD (b % 16) '0' :: hexChars bs

/-- Model of `rustc_serialize::hex::ToHex::to_hex` — lowercase hex encoding. -/
def toHexLower (bs : Bytes) : String := ⟨hexChars bs⟩

/-- Source: `struct WriteBuf` — the mutable upload progress record (the spec's
`ChunkState`).  The `conn : Connection` field is the HTTP transport handle
and is represented by the network oracle instead. -/
structure WriteBuf where
  size : Nat
  written : Nat
  buffer : Bytes
  chunkUri : String
  chunkNo : Nat
deriving DecidableEq

/-- Source: `WriteBuf::new` — fresh state: empty buffer, `written = 0`, `chunk_no = 0`. -/
def WriteBuf.new (size : Nat) (chunkUri : String) : WriteBuf :=
  { size := size, written := 0, buffer := [], chunkUri := chunkUri, chunkNo := 0 }

/-- One chunk POST as put on the wire: the query parameters appended to the
chunk URI and the request body. -/
structure ChunkPost where
  index : Nat
  offset : Nat
  filehash : String
  finish : Bool
  body : Bytes
  url : String
deriving DecidableEq

/-- Outcome of one `conn.custom_request(Method::Post, ...)`: `ok status` for a
response with the given HTTP status code, `err` for a transport failure. -/
inductive NetResult
  | ok (status : Nat)
  | err
deriving DecidableEq

/-- Model of `hyper::status::StatusCode::is_success` — the 2xx class. -/
def isSuccessStatus (s : Nat) : Bool := decide (200 ≤ s) && decide (s ≤ 299)

/-- Whether a network outcome is a success response. -/
def netOk : NetResult → Bool
  | .ok s => isSuccessStatus s
  | .err => false

/-- Result of one `write` call.  `ok n` is `Ok(buf.len())`; the two `err`
constructors are the `io::Error` returns for a non-success status and for a
transport failure; the `panic` constructors model the source's panics. -/
inductive WriteResult
  | ok (n : Nat)
  | errChunkStatus (status : Nat)
  | errChunkTransport
  | panicSizeExceeded
  | panicNotWriteMode
deriving DecidableEq

/-- Source: `write_buf.buffer.extend_from_slice(buf)` — append the whole input to the
pending buffer. -/
def extendBuf (wb : WriteBuf) (buf : Bytes) : WriteBuf :=
  { wb with buffer := wb.buffer ++ buf }

/-- Source: `let finish = (write_buf.written + write_buf.buffer.len() as u64) >= write_buf.size;`
computed on the state whose buffer already holds the new bytes. -/
def finishFlag (wb : WriteBuf) : Bool :=
  decide (wb.size ≤ wb.written + wb.buffer.length)

/-- Source: `write_buf.buffer.len() >= CHUNK_SIZE || finish` — the flush trigger. -/
def triggerFlush (wb : WriteBuf) : Bool :=
  decide (CHUNK_SIZE ≤ wb.buffer.length) || finishFlag wb

/-- The query-parameter string built by the `form_urlencoded` serializer:
`finish=true` first when finishing, then `index`, `offset`, `filehash`.  All
values are digits or lowercase hex, so percent-encoding is the identity. -/
def chunkParams (finish : Bool) (index offset : Nat) (filehash : String) : String :=
  (if finish then "finish=true&" else "")
    ++ "index=" ++ toString index
    ++ "&offset=" ++ toString offset
    ++ "&filehash=" ++ filehash

/-- The chunk POST built at flush time from the extended state: MD5 digest of
the pending buffer, parameters from `chunk_no` / `written` / the digest, URL
`chunk_uri ++ "&" ++ params`, body = the pending buffer. -/
def mkPost (md5f : Bytes → Bytes) (wb : WriteBuf) : ChunkPost :=
  { index := wb.chunkNo
    offset := wb.written
    filehash := toHexLower (md5f wb.buffer)
    finish := finishFlag wb
    body := wb.buffer
    url := wb.chunkUri ++ "&"
      ++ chunkParams (finishFlag wb) wb.chunkNo wb.written (toHexLower (md5f wb.buffer)) }

/-- The successful-response state update:
`written += buffer.len(); chunk_no += 1; buffer.clear();`. -/
def applySuccess (wb : WriteBuf) : WriteBuf :=
  { wb with
      written := wb.written + wb.buffer.length
      chunkNo := wb.chunkNo + 1
      buffer := [] }

/-- Output of one engine `write` call: the call's result, the state after the
call, and the chunk POSTs put on the wire (each tagged with whether the
response was a success). -/
structure StepOut where
  result : WriteResult
  state : WriteBuf
  posts : List (ChunkPost × Bool)
deriving DecidableEq

/-- One call of `<Content as io::Write>::write` on the inner `WriteBuf`
(the branch where `self.writer` is `Some`), transcribed from
`src/api/items/content.rs` lines 141–197.  `net` is the network's answer to
the POST this call would make. -/
def writeStep (md5f : Bytes → Bytes) (net : NetResult) (wb : WriteBuf) (buf : Bytes) :
    StepOut :=
  if wb.written < wb.size then
    let wb' := extendBuf wb buf
    if triggerFlush wb' then
      match net with
      | .ok status =>
          if isSuccessStatus status then
            ⟨.ok buf.length, applySuccess wb', [(mkPost md5f wb', true)]⟩
          else
            ⟨.errChunkStatus status, wb', [(mkPost md5f wb', false)]⟩
      | .err => ⟨.errChunkTransport, wb', [(mkPost md5f wb', false)]⟩
    else
      ⟨.ok buf.length, wb', []⟩
  else
    ⟨.panicSizeExceeded, wb, []⟩

/-- Final state and wire trace of a sequence of engine `write` calls.  Each
call comes with the network's answer to its potential POST.  A panic aborts
the process, so the run stops there. -/
structure RunOut where
  state : WriteBuf
  posts : List (ChunkPost × Bool)
deriving DecidableEq

/-- Run a sequence of `write` calls from a given engine state. -/
def runWrites (md5f : Bytes → Bytes) : WriteBuf → List (Bytes × NetResult) → RunOut
  | wb, [] => ⟨wb, []⟩
  | wb, (buf, net) :: rest =>
      let o := writeStep md5f net wb buf
      match o.result with
      | .panicSizeExceeded => ⟨o.state, o.posts⟩
      | _ =>
          let r := runWrites md5f o.state rest
          ⟨r.state, o.posts ++ r.posts⟩

/-- Source: `pub struct Content` — exactly one of the two options is populated.  The
opaque boxed reader (a live HTTP response body) is modelled by the byte
sequence it would deliver. -/
structure Content where
  reader : Option Bytes
  writer : Option WriteBuf
deriving DecidableEq

/-- Success path of `Content::open_for_read`: wraps the download stream,
`writer` is `None`. -/
def Content.open_for_read (stream : Bytes) : Content :=
  { reader := some stream, writer := none }

/-- Success path of `Content::open_for_write`: a fresh `WriteBuf` from the
declared file size and the `ChunkUri` of the upload specification, `reader`
is `None`. -/
def Content.open_for_write (size : Nat) (chunkUri : String) : Content :=
  { reader := none, writer := some (WriteBuf.new size chunkUri) }

/-- Result of one `read` call: relayed data, or the panic raised when the
handle is not opened for reading. -/
inductive ReadResult
  | ok (data : Bytes)
  | panicNotReadMode
deriving DecidableEq

/-- Transcription of `<Content as io::Read>::read` — pass-through to the underlying reader
when present, panic otherwise. -/
def Content.read (c : Content) (n : Nat) : ReadResult × Content :=
  match c.reader with
  | some data => (.ok (data.take n), { c with reader := some (data.drop n) })
  | none => (.panicNotReadMode, c)

/-- Output of one handle-level `write` call. -/
structure CStepOut where
  result : WriteResult
  state : Content
  posts : List (ChunkPost × Bool)
deriving DecidableEq

/-- Transcription of `<Content as io::Write>::write` — delegates to the engine when the handle
is in write mode, panics otherwise. -/
def Content.write (md5f : Bytes → Bytes) (net : NetResult) (c : Content) (buf : Bytes) :
    CStepOut :=
  match c.writer with
  | some wb =>
      let o := writeStep md5f net wb buf
      ⟨o.result, { c with writer := some o.state }, o.posts⟩
  | none => ⟨.panicNotWriteMode, c, []⟩

/-- Result type of `flush`. -/
inductive FlushResult
  | ok
deriving DecidableEq

/-- Transcription of `<Content as io::Write>::flush`, which is `Ok(())` and nothing else:
returns `Ok(())`, touches nothing, sends nothing. -/
def Content.flush (c : Content) : FlushResult × Content × List (ChunkPost × Bool) :=
  (.ok, c, [])

/-- Total length of the inputs of a sequence of write calls. -/
def sumLen (calls : List (Bytes × NetResult)) : Nat :=
  (calls.map (fun c => c.1.length)).sum

/-- Sum of the body lengths of a list of chunk POSTs. -/
def sumBodies (ps : List ChunkPost) : Nat :=
  (ps.map (fun p => p.body.length)).sum

/-- The successfully sent chunk POSTs of a wire trace. -/
def succPosts (ps : List (ChunkPost × Bool)) : List ChunkPost :=
  (ps.filter (fun pb => pb.2)).map (fun pb => pb.1)

/-- The chunk POSTs `ps` carry consecutive indices starting at `n` and each
POST's `offset` is `w` plus the total body length of the POSTs before it. -/
def chainFrom : Nat → Nat → List ChunkPost → Prop
  | _, _, [] => True
  | n, w, p :: ps => p.index = n ∧ p.offset = w ∧ chainFrom (n + 1) (w + p.body.length) ps

/-- Default chunk POST used with `List.getD`. -/
def dfltPost : ChunkPost :=
  { index := 0, offset := 0, filehash := "", finish := false, body := [], url := "" }

/-- Whether a `write` result is one of the two chunk-POST failures: the
`io::Error` for a non-2xx status or the one for a transport failure. -/
def WriteResult.isChunkError : WriteResult → Bool
  | .errChunkStatus _ => true
  | .errChunkTransport => true
  | _ => false

/-! ### Case analysis of one `write` call -/

/-- Exhaustive case analysis of `writeStep`: panic on the entry guard, a pure
buffering call, a successful flush, a non-2xx flush, or a transport-failure
flush. -/
theorem writeStep_cases (md5f : Bytes → Bytes) (net : NetResult) (wb : WriteBuf) (buf : Bytes) :
    (wb.size ≤ wb.written ∧ writeStep md5f net wb buf = ⟨.panicSizeExceeded, wb, []⟩)
    ∨ (wb.written < wb.size ∧ triggerFlush (extendBuf wb buf) = false ∧
        writeStep md5f net wb buf = ⟨.ok buf.length, extendBuf wb buf, []⟩)
    ∨ (wb.written < wb.size ∧ triggerFlush (extendBuf wb buf) = true ∧ netOk net = true ∧
        writeStep md5f net wb buf =
          ⟨.ok buf.length, applySuccess (extendBuf wb buf),
            [(mkPost md5f (extendBuf wb buf), true)]⟩)
    ∨ (wb.written < wb.size ∧ triggerFlush (extendBuf wb buf) = true ∧
        (∃ s, net = .ok s ∧ isSuccessStatus s = false ∧
          writeStep md5f net wb buf =
            ⟨.errChunkStatus s, extendBuf wb buf, [(mkPost md5f (extendBuf wb buf), false)]⟩))
    ∨ (wb.written < wb.size ∧ triggerFlush (extendBuf wb buf) = true ∧ net = .err ∧
        writeStep md5f net wb buf =
          ⟨.errChunkTransport, extendBuf wb buf, [(mkPost md5f (extendBuf wb buf), false)]⟩) := by
  by_cases hg : wb.written < wb.size
  · by_cases ht : triggerFlush (extendBuf wb buf) = true
    · cases net with
      | ok s =>
          by_cases hs : isSuccessStatus s = true
          · refine Or.inr (Or.inr (Or.inl ⟨hg, ht, hs, ?_⟩))
            simp [writeStep, hg, ht, hs, netOk]
          · refine Or.inr (Or.inr (Or.inr (Or.inl ⟨hg, ht, s, rfl,
              Bool.eq_false_iff.mpr hs, ?_⟩)))
            simp [writeStep, hg, ht, hs]
      | err =>
          refine Or.inr (Or.inr (Or.inr (Or.inr ⟨hg, ht, rfl, ?_⟩)))
          simp [writeStep, hg, ht]
    · refine Or.inr (Or.inl ⟨hg, Bool.eq_false_iff.mpr ht, ?_⟩)
      simp [writeStep, hg, ht]
  · exact Or.inl ⟨Nat.not_lt.mp hg, by simp [writeStep, hg]⟩

/-- Unfolding of `runWrites` on a cons cell once the step output is known and
is not a panic. -/
theorem runWrites_cons_of_ne (md5f : Bytes → Bytes) (wb : WriteBuf) (buf : Bytes)
    (net : NetResult) (rest : List (Bytes × NetResult))
    (h : (writeStep md5f net wb buf).result ≠ .panicSizeExceeded) :
    runWrites md5f wb ((buf, net) :: rest) =
      ⟨(runWrites md5f (writeStep md5f net wb buf).state rest).state,
        (writeStep md5f net wb buf).posts
          ++ (runWrites md5f (writeStep md5f net wb buf).state rest).posts⟩ := by
  rw [runWrites]
  rcases hr : (writeStep md5f net wb buf).result with n | s | _ | _ | _ <;>
    simp_all

/-- Unfolding of `runWrites` on a cons cell whose step panics: the run stops. -/
theorem runWrites_cons_of_panic (md5f : Bytes → Bytes) (wb : WriteBuf) (buf : Bytes)
    (net : NetResult) (rest : List (Bytes × NetResult))
    (h : writeStep md5f net wb buf = ⟨.panicSizeExceeded, wb, []⟩) :
    runWrites md5f wb ((buf, net) :: rest) = ⟨wb, []⟩ := by
  rw [runWrites, h]

/-- A `write` call whose result is the size panic left the state untouched and
sent nothing. -/
theorem writeStep_panic_eq (md5f : Bytes → Bytes) (net : NetResult) (wb : WriteBuf)
    (buf : Bytes) (hp : (writeStep md5f net wb buf).result = .panicSizeExceeded) :
    writeStep md5f net wb buf = ⟨.panicSizeExceeded, wb, []⟩ := by
  rcases writeStep_cases md5f net wb buf with
    ⟨-, he⟩ | ⟨-, -, he⟩ | ⟨-, -, -, he⟩ | ⟨-, -, s, -, -, he⟩ | ⟨-, -, -, he⟩ <;>
    rw [he] at hp ⊢ <;> simp_all

/-- One `write` call never changes the declared size or the chunk URI. -/
theorem writeStep_state_size (md5f : Bytes → Bytes) (net : NetResult) (wb : WriteBuf)
    (buf : Bytes) :
    (writeStep md5f net wb buf).state.size = wb.size ∧
    (writeStep md5f net wb buf).state.chunkUri = wb.chunkUri := by
  rcases writeStep_cases md5f net wb buf with
    ⟨-, he⟩ | ⟨-, -, he⟩ | ⟨-, -, -, he⟩ | ⟨-, -, s, -, -, he⟩ | ⟨-, -, -, he⟩ <;>
    rw [he] <;> simp [extendBuf, applySuccess]

/-- A run of `write` calls never changes the declared size or the chunk URI. -/
theorem runWrites_size (md5f : Bytes → Bytes) (wb : WriteBuf)
    (calls : List (Bytes × NetResult)) :
    (runWrites md5f wb calls).state.size = wb.size ∧
    (runWrites md5f wb calls).state.chunkUri = wb.chunkUri := by
  induction calls generalizing wb with
  | nil => exact ⟨rfl, rfl⟩
  | cons c rest ih =>
      obtain ⟨buf, net⟩ := c
      by_cases hp : (writeStep md5f net wb buf).result = .panicSizeExceeded
      · rw [runWrites_cons_of_panic md5f wb buf net rest
          (writeStep_panic_eq md5f net wb buf hp)]
        exact ⟨rfl, rfl⟩
      · rw [runWrites_cons_of_ne md5f wb buf net rest hp]
        have hst := writeStep_state_size md5f net wb buf
        have hr := ih ((writeStep md5f net wb buf).state)
        exact ⟨hr.1.trans hst.1, hr.2.trans hst.2⟩

/-- One `write` call grows `written + buffer.length` by at most the input
length (exactly, except when the call panics and drops the input). -/
theorem writeStep_acc (md5f : Bytes → Bytes) (net : NetResult) (wb : WriteBuf)
    (buf : Bytes) :
    (writeStep md5f net wb buf).state.written + (writeStep md5f net wb buf).state.buffer.length
      ≤ wb.written + wb.buffer.length + buf.length := by
  rcases writeStep_cases md5f net wb buf with
    ⟨-, he⟩ | ⟨-, -, he⟩ | ⟨-, -, -, he⟩ | ⟨-, -, s, -, -, he⟩ | ⟨-, -, -, he⟩ <;>
    rw [he] <;> simp [extendBuf, applySuccess] <;> omega

/-- Over a run, `written + buffer.length` grows by at most the total input
length. -/
theorem runWrites_acc (md5f : Bytes → Bytes) (wb : WriteBuf)
    (calls : List (Bytes × NetResult)) :
    (runWrites md5f wb calls).state.written + (runWrites md5f wb calls).state.buffer.length
      ≤ wb.written + wb.buffer.length + sumLen calls := by
  induction calls generalizing wb with
  | nil => simp [runWrites, sumLen]
  | cons c rest ih =>
      obtain ⟨buf, net⟩ := c
      have hsum : sumLen ((buf, net) :: rest) = buf.length + sumLen rest := by
        simp [sumLen]
      by_cases hp : (writeStep md5f net wb buf).result = .panicSizeExceeded
      · rw [runWrites_cons_of_panic md5f wb buf net rest
          (writeStep_panic_eq md5f net wb buf hp)]
        dsimp only
        omega
      · rw [runWrites_cons_of_ne md5f wb buf net rest hp]
        have h1 := writeStep_acc md5f net wb buf
        have h2 := ih ((writeStep md5f net wb buf).state)
        dsimp only
        omega

/-! ### Chain structure of the wire trace -/

/-- The function `succPosts` distributes over trace concatenation. -/
theorem succPosts_append (a b : List (ChunkPost × Bool)) :
    succPosts (a ++ b) = succPosts a ++ succPosts b := by
  simp [succPosts, List.filter_append]

/-- The function `sumBodies` distributes over concatenation. -/
theorem sumBodies_append (a b : List ChunkPost) :
    sumBodies (a ++ b) = sumBodies a + sumBodies b := by
  simp [sumBodies]

/-- Value of `sumBodies` on a cons cell. -/
theorem sumBodies_cons (p : ChunkPost) (ps : List ChunkPost) :
    sumBodies (p :: ps) = p.body.length + sumBodies ps := by
  simp [sumBodies]

/-- Two chains compose when the second one starts at the counters the first
one ends with. -/
theorem chainFrom_append_of : ∀ (ps qs : List ChunkPost) (n w : Nat),
    chainFrom n w ps → chainFrom (n + ps.length) (w + sumBodies ps) qs →
    chainFrom n w (ps ++ qs)
  | [], qs, n, w, _, hq => by simpa [sumBodies] using hq
  | p :: ps, qs, n, w, hp, hq => by
      obtain ⟨h1, h2, h3⟩ := hp
      have e1 : n + (p :: ps).length = n + 1 + ps.length := by
        simp [List.length_cons]; omega
      have e2 : w + sumBodies (p :: ps) = w + p.body.length + sumBodies ps := by
        rw [sumBodies_cons]; omega
      rw [e1, e2] at hq
      exact ⟨h1, h2, chainFrom_append_of ps qs (n + 1) (w + p.body.length) h3 hq⟩

/-- Element-wise reading of a chain: the `k`-th POST has index `n + k` and
offset `w` plus the sum of the body lengths of the POSTs before it. -/
theorem chainFrom_get : ∀ (ps : List ChunkPost) (n w k : Nat) (hk : k < ps.length),
    chainFrom n w ps →
    (ps.get ⟨k, hk⟩).index = n + k ∧
    (ps.get ⟨k, hk⟩).offset = w + sumBodies (ps.take k)
  | [], _, _, k, hk, _ => by simp at hk
  | p :: ps, n, w, 0, _, hc => by
      simpa [sumBodies] using ⟨hc.1, hc.2.1⟩
  | p :: ps, n, w, k + 1, hk, hc => by
      have hk' : k < ps.length := by simpa using hk
      have ih := chainFrom_get ps (n + 1) (w + p.body.length) k hk' hc.2.2
      refine ⟨?_, ?_⟩
      · simpa [Nat.add_assoc, Nat.add_comm 1 k] using ih.1
      · rw [List.take_succ_cons, sumBodies_cons]
        simp only [List.get_cons_succ, Nat.add_sub_cancel]
        omega

/-- The trace of one `write` call: `written` grows by the bodies of the
successful POSTs, `chunk_no` by their number, and the successful POSTs chain
from the entry counters. -/
theorem writeStep_trace (md5f : Bytes → Bytes) (net : NetResult) (wb : WriteBuf)
    (buf : Bytes) :
    (writeStep md5f net wb buf).state.written
        = wb.written + sumBodies (succPosts (writeStep md5f net wb buf).posts) ∧
    (writeStep md5f net wb buf).state.chunkNo
        = wb.chunkNo + (succPosts (writeStep md5f net wb buf).posts).length ∧
    chainFrom wb.chunkNo wb.written (succPosts (writeStep md5f net wb buf).posts) := by
  rcases writeStep_cases md5f net wb buf with
    ⟨-, he⟩ | ⟨-, -, he⟩ | ⟨-, -, -, he⟩ | ⟨-, -, s, -, -, he⟩ | ⟨-, -, -, he⟩ <;>
    rw [he] <;>
    simp [succPosts, sumBodies, chainFrom, mkPost, extendBuf, applySuccess]

/-- The trace of a run: `written` grows by the bodies of the successful
POSTs, `chunk_no` by their number, and the successful POSTs chain from the
entry counters. -/
theorem runWrites_trace (md5f : Bytes → Bytes) (wb : WriteBuf)
    (calls : List (Bytes × NetResult)) :
    (runWrites md5f wb calls).state.written
        = wb.written + sumBodies (succPosts (runWrites md5f wb calls).posts) ∧
    (runWrites md5f wb calls).state.chunkNo
        = wb.chunkNo + (succPosts (runWrites md5f wb calls).posts).length ∧
    chainFrom wb.chunkNo wb.written (succPosts (runWrites md5f wb calls).posts) := by
  induction calls generalizing wb with
  | nil => simp [runWrites, succPosts, sumBodies, chainFrom]
  | cons c rest ih =>
      obtain ⟨buf, net⟩ := c
      by_cases hp : (writeStep md5f net wb buf).result = .panicSizeExceeded
      · rw [runWrites_cons_of_panic md5f wb buf net rest
          (writeStep_panic_eq md5f net wb buf hp)]
        simp [succPosts, sumBodies, chainFrom]
      · rw [runWrites_cons_of_ne md5f wb buf net rest hp]
        obtain ⟨s1, s2, s3⟩ := writeStep_trace md5f net wb buf
        obtain ⟨r1, r2, r3⟩ := ih ((writeStep md5f net wb buf).state)
        dsimp only
        rw [succPosts_append]
        refine ⟨?_, ?_, ?_⟩
        · rw [sumBodies_append]
          omega
        · rw [List.length_append]
          omega
        · exact chainFrom_append_of _ _ _ _ s3 (by rw [← s1, ← s2]; exact r3)

/-! ### Per-POST facts -/

/-- The POST built at flush time carries the hex MD5 of exactly its own
body, computes `finish` from its own `offset` and body length against the
declared size, and has a nonempty body (given the entry guard and the flush
trigger). -/
theorem mkPost_fields (md5f : Bytes → Bytes) (wb : WriteBuf) (buf : Bytes)
    (h1 : wb.written < wb.size) (h2 : triggerFlush (extendBuf wb buf) = true) :
    (mkPost md5f (extendBuf wb buf)).filehash
        = toHexLower (md5f (mkPost md5f (extendBuf wb buf)).body) ∧
    (mkPost md5f (extendBuf wb buf)).finish
        = decide (wb.size ≤ (mkPost md5f (extendBuf wb buf)).offset
            + (mkPost md5f (extendBuf wb buf)).body.length) ∧
    (mkPost md5f (extendBuf wb buf)).body ≠ [] := by
  refine ⟨rfl, ?_, ?_⟩
  · simp [mkPost, finishFlag, extendBuf]
  · have ht : CHUNK_SIZE ≤ (wb.buffer ++ buf).length ∨
        wb.size ≤ wb.written + (wb.buffer ++ buf).length := by
      simpa [triggerFlush, finishFlag, extendBuf] using h2
    have hcs : 0 < CHUNK_SIZE := by norm_num [CHUNK_SIZE]
    have hpos : 0 < (wb.buffer ++ buf).length := by omega
    simp only [mkPost, extendBuf]
    exact List.ne_nil_of_length_pos hpos

/-- A single `write` call's emitted POSTs all satisfy the per-POST facts of
`mkPost_fields`. -/
theorem writeStep_post_fields (md5f : Bytes → Bytes) (net : NetResult) (wb : WriteBuf)
    (buf : Bytes) :
    ∀ pb ∈ (writeStep md5f net wb buf).posts,
      pb.1.filehash = toHexLower (md5f pb.1.body) ∧
      pb.1.finish = decide (wb.size ≤ pb.1.offset + pb.1.body.length) ∧
      pb.1.body ≠ [] := by
  rcases writeStep_cases md5f net wb buf with
    ⟨-, he⟩ | ⟨-, -, he⟩ | ⟨h1, h2, -, he⟩ | ⟨h1, h2, s, -, -, he⟩ | ⟨h1, h2, -, he⟩ <;>
    rw [he]
  · simp
  · simp
  all_goals
    simpa using mkPost_fields md5f wb buf h1 h2

/-- Every POST a run emits carries the hex MD5 of exactly its own body,
computes `finish` from its own `offset` and body length against the declared
size, and has a nonempty body. -/
theorem runWrites_post_fields (md5f : Bytes → Bytes) (wb : WriteBuf)
    (calls : List (Bytes × NetResult)) :
    ∀ pb ∈ (runWrites md5f wb calls).posts,
      pb.1.filehash = toHexLower (md5f pb.1.body) ∧
      pb.1.finish = decide (wb.size ≤ pb.1.offset + pb.1.body.length) ∧
      pb.1.body ≠ [] := by
  induction calls generalizing wb with
  | nil => simp [runWrites]
  | cons c rest ih =>
      obtain ⟨buf, net⟩ := c
      by_cases hp : (writeStep md5f net wb buf).result = .panicSizeExceeded
      · rw [runWrites_cons_of_panic md5f wb buf net rest
          (writeStep_panic_eq md5f net wb buf hp)]
        simp
      · rw [runWrites_cons_of_ne md5f wb buf net rest hp]
        intro pb hpb
        rcases List.mem_append.mp hpb with hmem | hmem
        · exact writeStep_post_fields md5f net wb buf pb hmem
        · have := ih ((writeStep md5f net wb buf).state) pb hmem
          rwa [(writeStep_state_size md5f net wb buf).1] at this

/-- If the network answers every call with a 2xx response, every POST of the
run is tagged successful. -/
theorem runWrites_all_success (md5f : Bytes → Bytes) (wb : WriteBuf)
    (calls : List (Bytes × NetResult))
    (hok : calls.all (fun c => netOk c.2) = true) :
    ∀ pb ∈ (runWrites md5f wb calls).posts, pb.2 = true := by
  induction calls generalizing wb with
  | nil => simp [runWrites]
  | cons c rest ih =>
      obtain ⟨buf, net⟩ := c
      have hok1 : netOk net = true := by
        have := List.all_eq_true.mp hok (buf, net) (by simp)
        simpa using this
      have hokr : rest.all (fun c => netOk c.2) = true := by
        refine List.all_eq_true.mpr ?_
        intro x hx
        exact List.all_eq_true.mp hok x (by simp [hx])
      by_cases hp : (writeStep md5f net wb buf).result = .panicSizeExceeded
      · rw [runWrites_cons_of_panic md5f wb buf net rest
          (writeStep_panic_eq md5f net wb buf hp)]
        simp
      · rw [runWrites_cons_of_ne md5f wb buf net rest hp]
        intro pb hpb
        rcases List.mem_append.mp hpb with hmem | hmem
        · rcases writeStep_cases md5f net wb buf with
            ⟨-, he⟩ | ⟨-, -, he⟩ | ⟨-, -, -, he⟩ | ⟨-, -, s, hn, hs, he⟩ | ⟨-, -, hn, he⟩ <;>
            rw [he] at hmem <;> simp_all [netOk]
        · exact ih ((writeStep md5f net wb buf).state) hokr pb hmem

/-- Value of `sumLen` on a cons cell. -/
theorem sumLen_cons (buf : Bytes) (net : NetResult) (rest : List (Bytes × NetResult)) :
    sumLen ((buf, net) :: rest) = buf.length + sumLen rest := by
  simp [sumLen]

/-- Completion: when every network answer is a success and the total input of
the calls brings `written + buffer.length` exactly to the declared size, the
run ends with `written = size` and an empty pending buffer.  The side
condition states that a nonempty entry buffer has not yet reached the size
(true of every state the engine reaches, since reaching the size triggers the
final flush inside the same call). -/
theorem runWrites_complete (md5f : Bytes → Bytes) (wb : WriteBuf)
    (calls : List (Bytes × NetResult))
    (hok : calls.all (fun c => netOk c.2) = true)
    (hJ : wb.buffer = [] ∨ wb.written + wb.buffer.length < wb.size)
    (hacc : wb.written + wb.buffer.length + sumLen calls = wb.size) :
    (runWrites md5f wb calls).state.written = wb.size ∧
    (runWrites md5f wb calls).state.buffer = [] := by
  induction calls generalizing wb with
  | nil =>
      simp only [runWrites, sumLen, List.map_nil, List.sum_nil, Nat.add_zero] at hacc ⊢
      rcases hJ with h | h
      · rw [h] at hacc ⊢
        simp at hacc
        exact ⟨hacc, rfl⟩
      · omega
  | cons c rest ih =>
      obtain ⟨buf, net⟩ := c
      have hok1 : netOk net = true := by
        have := List.all_eq_true.mp hok (buf, net) (by simp)
        simpa using this
      have hokr : rest.all (fun c => netOk c.2) = true := by
        refine List.all_eq_true.mpr ?_
        intro x hx
        exact List.all_eq_true.mp hok x (by simp [hx])
      rw [sumLen_cons] at hacc
      rcases writeStep_cases md5f net wb buf with
        ⟨h1, he⟩ | ⟨h1, h2, he⟩ | ⟨h1, h2, -, he⟩ | ⟨h1, h2, s, hn, hs, he⟩ | ⟨h1, h2, hn, he⟩
      · rw [runWrites_cons_of_panic md5f wb buf net rest he]
        dsimp only
        have hw : wb.written = wb.size := by omega
        have hb : wb.buffer.length = 0 := by omega
        exact ⟨hw, List.length_eq_zero.mp hb⟩
      · rw [runWrites_cons_of_ne md5f wb buf net rest (by rw [he]; simp), he]
        dsimp only
        have hnt : wb.written + (wb.buffer.length + buf.length) < wb.size := by
          have := h2
          simp [triggerFlush, finishFlag, extendBuf] at this
          exact this.2
        have hJ' : (extendBuf wb buf).buffer = [] ∨
            (extendBuf wb buf).written + (extendBuf wb buf).buffer.length
              < (extendBuf wb buf).size := by
          right
          simp only [extendBuf, List.length_append]
          omega
        have hacc' : (extendBuf wb buf).written + (extendBuf wb buf).buffer.length
            + sumLen rest = (extendBuf wb buf).size := by
          simp only [extendBuf, List.length_append]
          omega
        have hr := ih (extendBuf wb buf) hokr hJ' hacc'
        simpa [extendBuf] using hr
      · rw [runWrites_cons_of_ne md5f wb buf net rest (by rw [he]; simp), he]
        dsimp only
        have hJ' : (applySuccess (extendBuf wb buf)).buffer = [] ∨
            (applySuccess (extendBuf wb buf)).written
              + (applySuccess (extendBuf wb buf)).buffer.length
              < (applySuccess (extendBuf wb buf)).size :=
          Or.inl rfl
        have hacc' : (applySuccess (extendBuf wb buf)).written
            + (applySuccess (extendBuf wb buf)).buffer.length
            + sumLen rest = (applySuccess (extendBuf wb buf)).size := by
          simp only [applySuccess, extendBuf, List.length_append, List.length_nil]
          omega
        have hr := ih (applySuccess (extendBuf wb buf)) hokr hJ' hacc'
        simpa [applySuccess, extendBuf] using hr
      · rw [hn] at hok1
        simp [netOk, hs] at hok1
      · rw [hn] at hok1
        simp [netOk] at hok1

/-- The function `sumLen` distributes over concatenation. -/
theorem sumLen_append (a b : List (Bytes × NetResult)) :
    sumLen (a ++ b) = sumLen a + sumLen b := by
  simp [sumLen]

/-- The total input of a prefix of the calls is at most the total input. -/
theorem sumLen_take_le (calls : List (Bytes × NetResult)) (n : Nat) :
    sumLen (calls.take n) ≤ sumLen calls := by
  conv_rhs => rw [← List.take_append_drop n calls]
  rw [sumLen_append]
  omega

/-- A nonempty list of POSTs with nonempty bodies has positive total body
length. -/
theorem sumBodies_pos (l : List ChunkPost) (hne : l ≠ []) (hb : ∀ p ∈ l, p.body ≠ []) :
    0 < sumBodies l := by
  cases l with
  | nil => exact absurd rfl hne
  | cons p ps =>
      rw [sumBodies_cons]
      have : p.body ≠ [] := hb p (by simp)
      have := List.length_pos.mpr this
      omega

/-- Appending nothing to the pending buffer leaves the state unchanged. -/
theorem extendBuf_nil (wb : WriteBuf) : extendBuf wb [] = wb := by
  simp [extendBuf]

/-! ### Claims -/

/-- Claim C1, counterexample: on a write-mode handle with declared size 10, a
single write call passing 100 bytes succeeds (the entry guard only checks
`written < size` before the bytes are appended) and the successful chunk POST
pushes `written` to 100, past the declared size. -/
theorem C1_counterexample :
    (runWrites (fun _ => List.replicate 16 0) (WriteBuf.new 10 "u")
        [(List.replicate 100 0, NetResult.ok 200)]).state.written = 100 ∧
    ¬ (100 ≤ 10) := by
  exact ⟨by decide, by decide⟩

/-- Claim C1, amended: for every sequence of write calls whose TOTAL INPUT
LENGTH IS AT MOST the declared size, at every observable point (after any
prefix of the calls) the confirmed-byte counter `written` is at most `size`,
and no successful chunk POST pushes `written` past `size`.  (The original
claim, quantified over all call sequences, fails: the entry guard
`written < size` does not bound how many bytes one call may append, so a
caller that writes more than the declared size drives `written` past it.) -/
theorem C1_written_le_size (md5f : Bytes → Bytes) (size : Nat) (uri : String)
    (calls : List (Bytes × NetResult)) (n : Nat)
    (h : sumLen calls ≤ size) :
    (runWrites md5f (WriteBuf.new size uri) (calls.take n)).state.written ≤ size := by
  have h1 := runWrites_acc md5f (WriteBuf.new size uri) (calls.take n)
  have h2 := sumLen_take_le calls n
  simp only [WriteBuf.new, List.length_nil] at h1 ⊢
  omega

/-- Witness for C1: a 10-byte write on a size-10 handle keeps `written ≤ 10`. -/
theorem C1_witness :
    sumLen [(List.replicate 10 0, NetResult.ok 200)] ≤ 10 ∧
    (runWrites (fun _ => []) (WriteBuf.new 10 "u")
        ([(List.replicate 10 0, NetResult.ok 200)].take 1)).state.written ≤ 10 :=
  ⟨by decide,
    C1_written_le_size (fun _ => []) 10 "u" [(List.replicate 10 0, NetResult.ok 200)] 1
      (by decide)⟩

/-- A single successful write of any 20000-byte buffer on a fresh handle of
declared size 20000 produces exactly one POST, with all fields as the code
computes them. -/
theorem single_write_20000 (md5f : Bytes → Bytes) (uri : String) (buf : Bytes)
    (hlen : buf.length = 20000) :
    ((runWrites md5f (WriteBuf.new 20000 uri) [(buf, NetResult.ok 200)]).posts).map
      (fun pb => (pb.1.index, pb.1.offset, pb.1.finish, pb.1.body.length, pb.2))
      = [(0, 0, true, 20000, true)] := by
  rcases writeStep_cases md5f (NetResult.ok 200) (WriteBuf.new 20000 uri) buf with
    ⟨h1, he⟩ | ⟨h1, h2, he⟩ | ⟨h1, h2, h3, he⟩ | ⟨h1, h2, s, hn, hs, he⟩ | ⟨h1, h2, hn, he⟩
  · simp [WriteBuf.new] at h1
  · simp [triggerFlush, finishFlag, extendBuf, WriteBuf.new, CHUNK_SIZE, hlen] at h2
  · rw [runWrites_cons_of_ne _ _ _ _ _ (by rw [he]; simp), he]
    simp [runWrites, mkPost, extendBuf, WriteBuf.new, finishFlag, hlen]
  · injection hn with hs2
    subst hs2
    simp [isSuccessStatus] at hs
  · simp at hn

/-- Claim C2, counterexample: with declared size 20000 and the default chunk
size 16384, a single write call passing a 20000-byte buffer produces exactly
ONE chunk POST, not the two the claim asserts — the code never splits the
pending buffer into `CHUNK_SIZE` pieces; it sends the whole buffer as one
chunk once the threshold is reached. -/
theorem C2_counterexample :
    ((runWrites (fun _ => []) (WriteBuf.new 20000 "u")
        [(List.replicate 20000 0, NetResult.ok 200)]).posts).length = 1 ∧
    (1 : Nat) ≠ 2 := by
  refine ⟨?_, by decide⟩
  have h := single_write_20000 (fun _ => []) "u" (List.replicate 20000 0)
    (List.length_replicate 20000 0)
  have h2 := congrArg List.length h
  rw [List.length_map] at h2
  exact h2

/-- Claim C2, amended: with declared size 20000 and the default chunk size,
a single write call passing any 20000-byte buffer to a fresh write-mode
handle produces exactly one chunk POST, carrying all 20000 bytes, with
`offset = 0`, `index = 0` and `finish=true` (for any digest function and
chunk URI). -/
theorem C2_single_post (md5f : Bytes → Bytes) (uri : String) (buf : Bytes)
    (hlen : buf.length = 20000) :
    ((runWrites md5f (WriteBuf.new 20000 uri) [(buf, NetResult.ok 200)]).posts).map
      (fun pb => (pb.1.index, pb.1.offset, pb.1.finish, pb.1.body.length, pb.2))
      = [(0, 0, true, 20000, true)] :=
  single_write_20000 md5f uri buf hlen

/-- Witness for C2 (amended): the 20000-byte buffer of zeros. -/
theorem C2_witness :
    (List.replicate 20000 (0 : Nat)).length = 20000 ∧
    ((runWrites (fun _ => []) (WriteBuf.new 20000 "u")
        [(List.replicate 20000 0, NetResult.ok 200)]).posts).map
      (fun pb => (pb.1.index, pb.1.offset, pb.1.finish, pb.1.body.length, pb.2))
      = [(0, 0, true, 20000, true)] :=
  ⟨List.length_replicate 20000 0,
    C2_single_post (fun _ => []) "u" (List.replicate 20000 0)
      (List.length_replicate 20000 0)⟩

/-- Claim C3, counterexample: declared size 10; a 10-byte write is flushed
but the POST fails in transport; the caller retries by writing the SAME 10
bytes again.  The failed bytes were left in the pending buffer, so the retry
appends them a second time: the retry POST reuses `index = 0` and
`offset = 0` but carries a 20-byte body and a different `filehash` — not
"exactly the same filehash and request body" as the failed attempt.  (Digest
function: the one-byte digest `b ↦ [b.length]`, so the hashes are the hex of
the body lengths, `"0a"` vs `"14"`.) -/
theorem C3_counterexample :
    ((runWrites (fun b => [b.length]) (WriteBuf.new 10 "u")
        [(List.replicate 10 7, NetResult.err),
         (List.replicate 10 7, NetResult.ok 200)]).posts).map
      (fun pb => (pb.1.index, pb.1.offset, pb.1.filehash, pb.1.body.length, pb.2))
      = [(0, 0, "0a", 10, false), (0, 0, "14", 20, true)] ∧
    ("14" : String) ≠ "0a" ∧ (20 : Nat) ≠ 10 := by
  exact ⟨by decide, by decide, by decide⟩

/-- A write call with an empty input on a state whose guard and flush trigger
hold emits exactly the POST `mkPost` builds from that state, whatever the
network answers. -/
theorem retry_emits_same (md5f : Bytes → Bytes) (net2 : NetResult) (wb1 : WriteBuf)
    (h1 : wb1.written < wb1.size) (ht : triggerFlush wb1 = true) :
    ((writeStep md5f net2 wb1 []).posts).map Prod.fst = [mkPost md5f wb1] := by
  rcases writeStep_cases md5f net2 wb1 [] with
    ⟨g1, ge⟩ | ⟨g1, g2, ge⟩ | ⟨g1, g2, g3, ge⟩ | ⟨g1, g2, t, gn, gs, ge⟩ | ⟨g1, g2, gn, ge⟩
  · omega
  · rw [extendBuf_nil, ht] at g2
    exact absurd g2 (by decide)
  · rw [ge]; simp [extendBuf_nil]
  · rw [ge]; simp [extendBuf_nil]
  · rw [ge]; simp [extendBuf_nil]

/-- Claim C3, amended: after a failed chunk POST the engine state is
unchanged, so the failed bytes are still in the pending buffer; a subsequent
write call passing an EMPTY buffer (rather than the same bytes again)
re-issues a chunk POST with exactly the same `index`, `offset`, `filehash`
and body as the failed attempt.  (Retrying by re-writing the same bytes
duplicates them, as the counterexample shows.) -/
theorem C3_empty_retry (md5f : Bytes → Bytes) (net1 net2 : NetResult) (wb : WriteBuf)
    (buf : Bytes) (p : ChunkPost)
    (h : (writeStep md5f net1 wb buf).posts = [(p, false)]) :
    ((writeStep md5f net2 (writeStep md5f net1 wb buf).state []).posts).map Prod.fst
      = [p] := by
  rcases writeStep_cases md5f net1 wb buf with
    ⟨h1, he⟩ | ⟨h1, h2, he⟩ | ⟨h1, h2, h3, he⟩ | ⟨h1, h2, s, hn, hs, he⟩ | ⟨h1, h2, hn, he⟩
  · rw [he] at h; simp at h
  · rw [he] at h; simp at h
  · rw [he] at h; simp at h
  · rw [he] at h ⊢
    dsimp only at h ⊢
    have h1' : (extendBuf wb buf).written < (extendBuf wb buf).size := by
      simpa [extendBuf] using h1
    rw [retry_emits_same md5f net2 (extendBuf wb buf) h1' h2]
    simp at h
    rw [h]
  · rw [he] at h ⊢
    dsimp only at h ⊢
    have h1' : (extendBuf wb buf).written < (extendBuf wb buf).size := by
      simpa [extendBuf] using h1
    rw [retry_emits_same md5f net2 (extendBuf wb buf) h1' h2]
    simp at h
    rw [h]

/-- Witness for C3 (amended): the concrete failed flush of the counterexample
followed by an empty-buffer retry reproduces the identical POST. -/
theorem C3_witness :
    (writeStep (fun b => [b.length]) NetResult.err (WriteBuf.new 10 "u")
        (List.replicate 10 7)).posts
      = [({ index := 0, offset := 0, filehash := "0a", finish := true,
            body := List.replicate 10 7,
            url := "u&finish=true&index=0&offset=0&filehash=0a" }, false)] ∧
    ((writeStep (fun b => [b.length]) (NetResult.ok 200)
        (writeStep (fun b => [b.length]) NetResult.err (WriteBuf.new 10 "u")
          (List.replicate 10 7)).state []).posts).map Prod.fst
      = [{ index := 0, offset := 0, filehash := "0a", finish := true,
           body := List.replicate 10 7,
           url := "u&finish=true&index=0&offset=0&filehash=0a" }] :=
  ⟨by decide,
    C3_empty_retry (fun b => [b.length]) NetResult.err (NetResult.ok 200)
      (WriteBuf.new 10 "u") (List.replicate 10 7) _ (by decide)⟩

/-- Adding the `k`-th body to the sum of the first `k` bodies gives the sum
of the first `k + 1`. -/
theorem sumBodies_take_succ (l : List ChunkPost) (k : Nat) (hk : k < l.length) :
    sumBodies (l.take (k + 1)) = sumBodies (l.take k) + (l.get ⟨k, hk⟩).body.length := by
  unfold sumBodies
  rw [List.map_take, List.map_take,
    List.sum_take_succ (l.map fun p => p.body.length) k (by simpa)]
  congr 1
  simp

/-- Splitting the total body length at position `m`. -/
theorem sumBodies_take_drop (l : List ChunkPost) (m : Nat) :
    sumBodies l = sumBodies (l.take m) + sumBodies (l.drop m) := by
  conv_lhs => rw [← List.take_append_drop m l]
  rw [sumBodies_append]

/-- In a chain of POSTs starting at index 0 and offset 0 whose total body
length is exactly `size`, whose `finish` flags are computed from offset and
body length against `size`, and whose bodies are nonempty, the `finish` flag
is set exactly on the last POST. -/
theorem chain_finish_iff (P : List ChunkPost) (size : Nat) (k : Nat) (hk : k < P.length)
    (hchain : chainFrom 0 0 P)
    (hsum : sumBodies P = size)
    (hfin : ∀ p ∈ P, p.finish = decide (size ≤ p.offset + p.body.length))
    (hne : ∀ p ∈ P, p.body ≠ []) :
    ((P.get ⟨k, hk⟩).finish = true ↔ k + 1 = P.length) := by
  have hoff := (chainFrom_get P 0 0 k hk hchain).2
  have hstep := sumBodies_take_succ P k hk
  have hfink := hfin _ (List.get_mem P k hk)
  rw [hfink, decide_eq_true_iff, hoff]
  constructor
  · intro hle
    by_contra hne2
    have hlt : k + 1 < P.length := by omega
    have hdrop : 0 < sumBodies (P.drop (k + 1)) := by
      apply sumBodies_pos
      · have hld : (P.drop (k + 1)).length = P.length - (k + 1) := List.length_drop _ _
        intro hnil
        rw [hnil] at hld
        simp at hld
        omega
      · intro p hp
        exact hne p (List.drop_subset _ _ hp)
    have hsplit := sumBodies_take_drop P (k + 1)
    omega
  · intro hk1
    have htake : P.take (k + 1) = P := by
      rw [hk1]
      exact List.take_length P
    rw [htake] at hstep
    omega

/-- Claim C4: for every sequence of write calls whose total input length
equals the declared size and in which every chunk POST succeeds, the sum of
the body lengths of all chunk POSTs equals the declared size exactly, and
`finish=true` appears on the final chunk POST and on no other. -/
theorem C4_exact_total (md5f : Bytes → Bytes) (size : Nat) (uri : String)
    (calls : List (Bytes × NetResult))
    (hok : calls.all (fun c => netOk c.2) = true)
    (htot : sumLen calls = size) :
    sumBodies (((runWrites md5f (WriteBuf.new size uri) calls).posts).map Prod.fst)
        = size ∧
    ∀ k, k < ((runWrites md5f (WriteBuf.new size uri) calls).posts).length →
      (((((runWrites md5f (WriteBuf.new size uri) calls).posts).map Prod.fst).getD k
            dfltPost).finish = true
        ↔ k + 1 = ((runWrites md5f (WriteBuf.new size uri) calls).posts).length) := by
  have hall : ∀ pb ∈ (runWrites md5f (WriteBuf.new size uri) calls).posts, pb.2 = true :=
    runWrites_all_success md5f (WriteBuf.new size uri) calls hok
  have hsp : succPosts (runWrites md5f (WriteBuf.new size uri) calls).posts
      = ((runWrites md5f (WriteBuf.new size uri) calls).posts).map Prod.fst := by
    unfold succPosts
    rw [List.filter_eq_self.mpr]
    intro a ha
    simpa using hall a ha
  have hcomp := runWrites_complete md5f (WriteBuf.new size uri) calls hok
    (Or.inl rfl) (by simpa [WriteBuf.new] using htot)
  have htr1 := (runWrites_trace md5f (WriteBuf.new size uri) calls).1
  rw [hsp, hcomp.1] at htr1
  have esize : (WriteBuf.new size uri).size = size := rfl
  have ewritten : (WriteBuf.new size uri).written = 0 := rfl
  have echunk : (WriteBuf.new size uri).chunkNo = 0 := rfl
  have hsum : sumBodies (((runWrites md5f (WriteBuf.new size uri) calls).posts).map
      Prod.fst) = size := by
    rw [esize, ewritten] at htr1
    omega
  refine ⟨hsum, ?_⟩
  intro k hk
  have hk' : k < (((runWrites md5f (WriteBuf.new size uri) calls).posts).map
      Prod.fst).length := by
    simpa using hk
  have hchain := (runWrites_trace md5f (WriteBuf.new size uri) calls).2.2
  rw [hsp, echunk, ewritten] at hchain
  have hfin : ∀ p ∈ ((runWrites md5f (WriteBuf.new size uri) calls).posts).map Prod.fst,
      p.finish = decide (size ≤ p.offset + p.body.length) := by
    intro p hp
    obtain ⟨pb, hpb, rfl⟩ := List.mem_map.mp hp
    have := (runWrites_post_fields md5f (WriteBuf.new size uri) calls pb hpb).2.1
    simpa [WriteBuf.new] using this
  have hne : ∀ p ∈ ((runWrites md5f (WriteBuf.new size uri) calls).posts).map Prod.fst,
      p.body ≠ [] := by
    intro p hp
    obtain ⟨pb, hpb, rfl⟩ := List.mem_map.mp hp
    exact (runWrites_post_fields md5f (WriteBuf.new size uri) calls pb hpb).2.2
  have hiff := chain_finish_iff
    (((runWrites md5f (WriteBuf.new size uri) calls).posts).map Prod.fst)
    size k hk' hchain hsum hfin hne
  rw [List.getD_eq_get _ dfltPost hk']
  rw [hiff]
  simp

/-- Witness for C4: two writes of 5 bytes on a size-10 handle, both POSTs
successful; the single flushed chunk accounts for all 10 bytes. -/
theorem C4_witness :
    ([(List.replicate 5 2, NetResult.ok 200),
      (List.replicate 5 3, NetResult.ok 201)].all (fun c => netOk c.2) = true) ∧
    sumLen [(List.replicate 5 2, NetResult.ok 200),
      (List.replicate 5 3, NetResult.ok 201)] = 10 ∧
    sumBodies (((runWrites (fun _ => []) (WriteBuf.new 10 "u")
        [(List.replicate 5 2, NetResult.ok 200),
         (List.replicate 5 3, NetResult.ok 201)]).posts).map Prod.fst) = 10 :=
  ⟨by decide, by decide,
    (C4_exact_total (fun _ => []) 10 "u"
      [(List.replicate 5 2, NetResult.ok 200),
       (List.replicate 5 3, NetResult.ok 201)] (by decide) (by decide)).1⟩

/-- Claim C5: for every run from a fresh handle, the `k`-th SUCCESSFUL chunk
POST carries `index = k` (0-based, one more per successful send) and
`offset` equal to the sum of the body lengths of all previously successfully
sent chunks (0 for chunk 0). -/
theorem C5_index_offset (md5f : Bytes → Bytes) (size : Nat) (uri : String)
    (calls : List (Bytes × NetResult)) (k : Nat)
    (hk : k < (succPosts (runWrites md5f (WriteBuf.new size uri) calls).posts).length) :
    ((succPosts (runWrites md5f (WriteBuf.new size uri) calls).posts).getD k dfltPost).index
        = k ∧
    ((succPosts (runWrites md5f (WriteBuf.new size uri) calls).posts).getD k dfltPost).offset
        = sumBodies
            ((succPosts (runWrites md5f (WriteBuf.new size uri) calls).posts).take k) := by
  have hc := (runWrites_trace md5f (WriteBuf.new size uri) calls).2.2
  have hg := chainFrom_get _ _ _ k hk hc
  rw [List.getD_eq_get _ dfltPost hk]
  simpa [WriteBuf.new] using hg

/-- Witness for C5: one successful 10-byte upload; its only POST has
`index = 0` and `offset = 0`. -/
theorem C5_witness :
    0 < (succPosts (runWrites (fun _ => []) (WriteBuf.new 10 "u")
        [(List.replicate 10 7, NetResult.ok 200)]).posts).length ∧
    ((succPosts (runWrites (fun _ => []) (WriteBuf.new 10 "u")
        [(List.replicate 10 7, NetResult.ok 200)]).posts).getD 0 dfltPost).index = 0 ∧
    ((succPosts (runWrites (fun _ => []) (WriteBuf.new 10 "u")
        [(List.replicate 10 7, NetResult.ok 200)]).posts).getD 0 dfltPost).offset
      = sumBodies ((succPosts (runWrites (fun _ => []) (WriteBuf.new 10 "u")
          [(List.replicate 10 7, NetResult.ok 200)]).posts).take 0) :=
  ⟨by decide,
    C5_index_offset (fun _ => []) 10 "u" [(List.replicate 10 7, NetResult.ok 200)] 0
      (by decide)⟩

/-- Claim C6: every chunk POST (successful or failed) carries a `filehash`
equal to the lowercase-hex MD5 digest of exactly the bytes of the pending
buffer at flush time — which is the POST body — not of the whole file.  The
digest function is abstract, so the equality holds for the digest of exactly
the body, whatever MD5 computes. -/
theorem C6_filehash (md5f : Bytes → Bytes) (size : Nat) (uri : String)
    (calls : List (Bytes × NetResult)) (pb : ChunkPost × Bool)
    (hpb : pb ∈ (runWrites md5f (WriteBuf.new size uri) calls).posts) :
    pb.1.filehash = toHexLower (md5f pb.1.body) :=
  (runWrites_post_fields md5f (WriteBuf.new size uri) calls pb hpb).1

/-- Witness for C6: the single POST of a successful 10-byte upload with the
trivial digest `_ ↦ []`. -/
theorem C6_witness :
    (({ index := 0, offset := 0, filehash := "", finish := true,
        body := List.replicate 10 7,
        url := "u&finish=true&index=0&offset=0&filehash=" } : ChunkPost), true)
      ∈ (runWrites (fun _ => []) (WriteBuf.new 10 "u")
          [(List.replicate 10 7, NetResult.ok 200)]).posts ∧
    (({ index := 0, offset := 0, filehash := "", finish := true,
        body := List.replicate 10 7,
        url := "u&finish=true&index=0&offset=0&filehash=" } : ChunkPost), true).1.filehash
      = toHexLower ((fun _ => [])
          (({ index := 0, offset := 0, filehash := "", finish := true,
              body := List.replicate 10 7,
              url := "u&finish=true&index=0&offset=0&filehash=" } : ChunkPost),
            true).1.body) :=
  ⟨by decide,
    C6_filehash (fun _ => []) 10 "u" [(List.replicate 10 7, NetResult.ok 200)] _ (by decide)⟩

/-- Claim C7: once `written` has reached the declared size, every further
write call on the write-mode handle fails (the source panics with
"Amount of bytes uploaded exceeded the file size", modelled as the
`SizeExceeded` failure `panicSizeExceeded`), performs no network call, and
leaves the handle unchanged. -/
theorem C7_write_after_complete (md5f : Bytes → Bytes) (net : NetResult) (c : Content)
    (wb : WriteBuf) (buf : Bytes) (h1 : c.writer = some wb) (h2 : wb.size ≤ wb.written) :
    Content.write md5f net c buf = ⟨.panicSizeExceeded, c, []⟩ := by
  obtain ⟨r, w⟩ := c
  dsimp only at h1
  subst h1
  have hstep : writeStep md5f net wb buf = ⟨.panicSizeExceeded, wb, []⟩ := by
    unfold writeStep
    rw [if_neg (Nat.not_lt.mpr h2)]
  simp [Content.write, hstep]

/-- Witness for C7: a handle whose engine has `written = size = 10` rejects a
further 2-byte write with the size panic and makes no POST. -/
theorem C7_witness :
    (({ reader := none, writer := some ⟨10, 10, [], "u", 1⟩ } : Content).writer
        = some ⟨10, 10, [], "u", 1⟩) ∧
    (10 : Nat) ≤ 10 ∧
    Content.write (fun _ => []) NetResult.err
        { reader := none, writer := some ⟨10, 10, [], "u", 1⟩ } [1, 2]
      = ⟨.panicSizeExceeded, { reader := none, writer := some ⟨10, 10, [], "u", 1⟩ }, []⟩ :=
  ⟨rfl, by decide,
    C7_write_after_complete (fun _ => []) NetResult.err
      { reader := none, writer := some ⟨10, 10, [], "u", 1⟩ } ⟨10, 10, [], "u", 1⟩ [1, 2]
      rfl (by decide)⟩

/-- Claim C8: when the chunk POST of a write call fails (non-2xx status or
transport error), `written`, `chunk_no` and the pending buffer are exactly as
they were at the moment of the flush attempt: the counters are not
incremented and the buffer — which holds the prior pending bytes plus this
call's input — is not cleared. -/
theorem C8_failed_flush_frame (md5f : Bytes → Bytes) (net : NetResult) (wb : WriteBuf)
    (buf : Bytes)
    (h : ((writeStep md5f net wb buf).result).isChunkError = true) :
    (writeStep md5f net wb buf).state.written = wb.written ∧
    (writeStep md5f net wb buf).state.chunkNo = wb.chunkNo ∧
    (writeStep md5f net wb buf).state.buffer = wb.buffer ++ buf := by
  rcases writeStep_cases md5f net wb buf with
    ⟨-, he⟩ | ⟨-, -, he⟩ | ⟨-, -, -, he⟩ | ⟨-, -, s, -, -, he⟩ | ⟨-, -, -, he⟩ <;>
    rw [he] at h ⊢ <;> simp_all [WriteResult.isChunkError, extendBuf]

/-- Witness for C8: a transport-failed flush of 10 bytes leaves
`written = 0`, `chunk_no = 0` and the 10 bytes in the buffer. -/
theorem C8_witness :
    ((writeStep (fun _ => []) NetResult.err (WriteBuf.new 10 "u")
        (List.replicate 10 7)).result).isChunkError = true ∧
    (writeStep (fun _ => []) NetResult.err (WriteBuf.new 10 "u")
        (List.replicate 10 7)).state.written = (WriteBuf.new 10 "u").written ∧
    (writeStep (fun _ => []) NetResult.err (WriteBuf.new 10 "u")
        (List.replicate 10 7)).state.chunkNo = (WriteBuf.new 10 "u").chunkNo ∧
    (writeStep (fun _ => []) NetResult.err (WriteBuf.new 10 "u")
        (List.replicate 10 7)).state.buffer
      = (WriteBuf.new 10 "u").buffer ++ List.replicate 10 7 :=
  ⟨by decide,
    C8_failed_flush_frame (fun _ => []) NetResult.err (WriteBuf.new 10 "u")
      (List.replicate 10 7) (by decide)⟩

/-- Claim C9: writing on a handle opened for reading fails with the
mode-violation panic (`panicNotWriteMode`, the source's "Content stream is
not opened for writing data") without any POST or state change, and reading
on a handle opened for writing fails with the mode-violation panic
(`panicNotReadMode`); neither silently succeeds or touches any data. -/
theorem C9_mode_violation (md5f : Bytes → Bytes) (net : NetResult) (stream buf : Bytes)
    (size n : Nat) (uri : String) :
    Content.write md5f net (Content.open_for_read stream) buf
      = ⟨.panicNotWriteMode, Content.open_for_read stream, []⟩ ∧
    Content.read (Content.open_for_write size uri) n
      = (ReadResult.panicNotReadMode, Content.open_for_write size uri) :=
  ⟨rfl, rfl⟩

/-- Claim C10: `flush` always returns `Ok(())`, performs no network I/O and
leaves the handle (hence `written`, `chunk_no` and the pending buffer)
unchanged; and a write call sends a POST exactly when the guard passes and
the extended pending buffer reaches `CHUNK_SIZE` or the declared size — so
bytes buffered below the threshold are only ever sent by a later write. -/
theorem C10_flush_noop (md5f : Bytes → Bytes) (net : NetResult) (c : Content)
    (wb : WriteBuf) (buf : Bytes) :
    Content.flush c = (FlushResult.ok, c, []) ∧
    ((writeStep md5f net wb buf).posts ≠ [] ↔
      (wb.written < wb.size ∧
        (CHUNK_SIZE ≤ wb.buffer.length + buf.length ∨
          wb.size ≤ wb.written + (wb.buffer.length + buf.length)))) := by
  refine ⟨rfl, ?_⟩
  rcases writeStep_cases md5f net wb buf with
    ⟨h1, he⟩ | ⟨h1, h2, he⟩ | ⟨h1, h2, h3, he⟩ | ⟨h1, h2, s, hn, hs, he⟩ | ⟨h1, h2, hn, he⟩ <;>
    rw [he] <;>
    dsimp only <;>
    simp only [ne_eq, not_true_eq_false, not_false_eq_true, List.cons_ne_nil,
      true_iff, false_iff, iff_true, iff_false] <;>
    [skip; skip; skip; skip; skip]
  · intro hcon
    omega
  · simp [triggerFlush, finishFlag, extendBuf] at h2
    intro hcon
    omega
  · simp [triggerFlush, finishFlag, extendBuf] at h2
    refine ⟨h1, ?_⟩
    omega
  · simp [triggerFlush, finishFlag, extendBuf] at h2
    refine ⟨h1, ?_⟩
    omega
  · simp [triggerFlush, finishFlag, extendBuf] at h2
    refine ⟨h1, ?_⟩
    omega

end Shapir
